import Mathlib

/-!
# A shallow embedding of the `chip8_rust` instruction engine

This file embeds the core of `src/chip8/src/chip8.rs` (struct `Chip8` and its
methods, above all `execute_instruction`) into Lean and proves properties of the
embedding.

Modelling conventions:
* Machine integers (`u8`, `u16`) are `Nat`s; an operation that wraps in Rust
  (`wrapping_add`, `overflowing_add`/`overflowing_sub`, `<<` on `u8`,
  unchecked `*` on `u8`, `+=` on `u16`) is embedded with an explicit `% 2^w`.
* Fixed-size arrays (`[u8; 4096]`, `[u8; 16]`, `[u8; 2048]`, `[u16; 16]`,
  `[bool; 16]`) are total functions out of `Nat`; every index the Rust code
  derives from operands is bounds-checked exactly where the Rust array indexing
  would panic, and a failed check makes the embedded step return `none`
  (`none` models a Rust panic, i.e. an aborted execution).
* The random source (trait `Random`) is an injected stream `randSeq` together
  with a cursor `randIdx`; each `randint()` call reads the next element
  (reduced `% 256` since `randint` returns a `u8`) and advances the cursor.
* Reads of `u8` array cells are reduced `% 256` where the surrounding
  computation depends on the cell being a byte; this models the `u8` cell type.
* The debug `println!` block of `execute_instruction` has no effect on machine
  state and is not modelled.
-/

/-- Pointwise update of a `Nat`-indexed map, modelling `a[i] = v`. -/
def upd (f : Nat → Nat) (i v : Nat) : Nat → Nat :=
  fun j => if j = i then v else f j

/-- Pointwise update of a `Nat`-indexed boolean map. -/
def updB (f : Nat → Bool) (i : Nat) (v : Bool) : Nat → Bool :=
  fun j => if j = i then v else f j

/-- The 80-byte glyph font table `FONTSET` of `chip8.rs`. -/
def FONTSET : List Nat :=
  [ 0xF0, 0x90, 0x90, 0x90, 0xF0,
    0x20, 0x60, 0x20, 0x20, 0x70,
    0xF0, 0x10, 0xF0, 0x80, 0xF0,
    0xF0, 0x10, 0xF0, 0x10, 0xF0,
    0x90, 0x90, 0xF0, 0x10, 0x10,
    0xF0, 0x80, 0xF0, 0x10, 0xF0,
    0xF0, 0x80, 0xF0, 0x90, 0xF0,
    0xF0, 0x10, 0x20, 0x40, 0x40,
    0xF0, 0x90, 0xF0, 0x90, 0xF0,
    0xF0, 0x90, 0xF0, 0x10, 0xF0,
    0xF0, 0x90, 0xF0, 0x90, 0x90,
    0xE0, 0x90, 0xE0, 0x90, 0xE0,
    0xF0, 0x80, 0x80, 0x80, 0xF0,
    0xE0, 0x90, 0x90, 0x90, 0xE0,
    0xF0, 0x80, 0xF0, 0x80, 0xF0,
    0xF0, 0x80, 0xF0, 0x80, 0x80 ]

/-- The machine state, mirroring `struct Chip8` of `chip8.rs` field by field. -/
structure Chip8 where
  memory : Nat → Nat
  V : Nat → Nat
  I : Nat
  PC : Nat
  delay : Nat
  sound : Nat
  SP : Nat
  stack : Nat → Nat
  randSeq : Nat → Nat
  randIdx : Nat
  gfx : Nat → Nat
  keyboard : Nat → Bool

/-- Constructor `Chip8::new`: font table at addresses `0..80`, game image at `0x200..`,
everything else zeroed, `PC = 0x200`. -/
def Chip8.new (game : List Nat) (randSeq : Nat → Nat) : Chip8 where
  memory := fun i =>
    if i < 80 then FONTSET.getD i 0
    else if 512 ≤ i ∧ i < 512 + game.length then game.getD (i - 512) 0 % 256
    else 0
  V := fun _ => 0
  I := 0
  PC := 512
  delay := 0
  sound := 0
  SP := 0
  stack := fun _ => 0
  randSeq := randSeq
  randIdx := 0
  gfx := fun _ => 0
  keyboard := fun _ => false

/-- The decoded form of an instruction: one constructor per arm of the
`match opcode` dispatch in `execute_instruction` (same arms, same order,
`invalid` standing for the final `panic!` arm). -/
inductive Op where
  | cls
  | ret
  | jmp (nnn : Nat)
  | call (nnn : Nat)
  | seImm (x kk : Nat)
  | sneImm (x kk : Nat)
  | seReg (x y : Nat)
  | ldImm (x kk : Nat)
  | addImm (x kk : Nat)
  | ldReg (x y : Nat)
  | orReg (x y : Nat)
  | andReg (x y : Nat)
  | xorReg (x y : Nat)
  | addReg (x y : Nat)
  | subReg (x y : Nat)
  | shr (x y : Nat)
  | subn (x y : Nat)
  | shl (x y : Nat)
  | sneReg (x y : Nat)
  | ldI (nnn : Nat)
  | jpV0 (nnn : Nat)
  | rnd (x kk : Nat)
  | drw (x y n : Nat)
  | skp (x : Nat)
  | sknp (x : Nat)
  | ldDelay (x : Nat)
  | ldKey (x : Nat)
  | setDelay (x : Nat)
  | setSound (x : Nat)
  | addI (x : Nat)
  | ldFont (x : Nat)
  | bcd (x : Nat)
  | store (x : Nat)
  | load (x : Nat)
  | invalid
deriving DecidableEq, Repr

/-- Split a 16-bit instruction into its four nibbles and match them exactly as
the `match opcode` of `execute_instruction` does (`(i & 0xF000) >> 12` is
`i / 4096` for `i < 65536`, and so on). -/
def decode (instruction : Nat) : Op :=
  match instruction / 4096, instruction / 256 % 16,
        instruction / 16 % 16, instruction % 16 with
  | 0, 0, 0xE, 0 => .cls
  | 0, 0, 0xE, 0xE => .ret
  | 1, _, _, _ => .jmp (instruction % 4096)
  | 2, _, _, _ => .call (instruction % 4096)
  | 3, x, _, _ => .seImm x (instruction % 256)
  | 4, x, _, _ => .sneImm x (instruction % 256)
  | 5, x, y, 0 => .seReg x y
  | 6, x, _, _ => .ldImm x (instruction % 256)
  | 7, x, _, _ => .addImm x (instruction % 256)
  | 8, x, y, 0 => .ldReg x y
  | 8, x, y, 1 => .orReg x y
  | 8, x, y, 2 => .andReg x y
  | 8, x, y, 3 => .xorReg x y
  | 8, x, y, 4 => .addReg x y
  | 8, x, y, 5 => .subReg x y
  | 8, x, y, 6 => .shr x y
  | 8, x, y, 7 => .subn x y
  | 8, x, y, 0xE => .shl x y
  | 9, x, y, 0 => .sneReg x y
  | 0xA, _, _, _ => .ldI (instruction % 4096)
  | 0xB, _, _, _ => .jpV0 (instruction % 4096)
  | 0xC, x, _, _ => .rnd x (instruction % 256)
  | 0xD, x, y, n => .drw x y n
  | 0xE, x, 9, 0xE => .skp x
  | 0xE, x, 0xA, 1 => .sknp x
  | 0xF, x, 0, 7 => .ldDelay x
  | 0xF, x, 0, 0xA => .ldKey x
  | 0xF, x, 1, 5 => .setDelay x
  | 0xF, x, 1, 8 => .setSound x
  | 0xF, x, 1, 0xE => .addI x
  | 0xF, x, 2, 9 => .ldFont x
  | 0xF, x, 3, 3 => .bcd x
  | 0xF, x, 5, 5 => .store x
  | 0xF, x, 6, 5 => .load x
  | _, _, _, _ => .invalid

/-- One pixel of the DRW loop body: collision check against the current cell
(`if self.gfx[index % 2048] == 1 { self.V[0xF] = 1 }`), then the XOR toggle
(`self.gfx[index % 2048] ^= 1`). The pair is (framebuffer, collision flag). -/
def drawStep (st : (Nat → Nat) × Nat) (idx : Nat) : (Nat → Nat) × Nat :=
  (upd st.1 idx (st.1 idx ^^^ 1), if st.1 idx = 1 then 1 else st.2)

/-- The state transition of one decoded instruction, applied to the state in
which `PC` has already been advanced by 2 (as `execute_instruction` does before
dispatch).  `none` models a Rust panic (out-of-bounds array index, or the
`panic!` of the invalid-instruction arm). -/
def exec_opcode (s : Chip8) (instruction : Nat) : Option Chip8 :=
  match decode instruction with
  | .cls => some { s with gfx := fun _ => 0 }
  | .ret =>
      if s.SP = 0 then none
      else if s.SP - 1 < 16 then
        some { s with SP := s.SP - 1, PC := s.stack (s.SP - 1) }
      else none
  | .jmp nnn => some { s with PC := nnn }
  | .call nnn =>
      if s.SP < 16 then
        some { s with stack := upd s.stack s.SP s.PC, SP := s.SP + 1, PC := nnn }
      else none
  | .seImm x kk => some { s with PC := if s.V x = kk then s.PC + 2 else s.PC }
  | .sneImm x kk => some { s with PC := if s.V x ≠ kk then s.PC + 2 else s.PC }
  | .seReg x y => some { s with PC := if s.V x = s.V y then s.PC + 2 else s.PC }
  | .ldImm x kk => some { s with V := upd s.V x kk }
  | .addImm x kk => some { s with V := upd s.V x ((s.V x + kk) % 256) }
  | .ldReg x y => some { s with V := upd s.V x (s.V y) }
  | .orReg x y => some { s with V := upd s.V x (s.V x ||| s.V y) }
  | .andReg x y => some { s with V := upd s.V x (s.V x &&& s.V y) }
  | .xorReg x y => some { s with V := upd s.V x (s.V x ^^^ s.V y) }
  | .addReg x y =>
      some { s with V := upd (upd s.V x ((s.V x + s.V y) % 256)) 15
                          (if 256 ≤ s.V x + s.V y then 1 else 0) }
  | .subReg x y =>
      some { s with V := upd (upd s.V x ((s.V x + 256 - s.V y) % 256)) 15
                          (if s.V x < s.V y then 1 else 0) }
  | .shr x y =>
      let V1 := upd s.V 15 (if s.V y &&& 1 ≠ 0 then 1 else 0)
      some { s with V := upd V1 x (V1 y >>> 1) }
  | .subn x y =>
      some { s with V := upd (upd s.V x ((s.V y + 256 - s.V x) % 256)) 15
                          (if s.V y < s.V x then 1 else 0) }
  | .shl x y =>
      let V1 := upd s.V 15 (if s.V y &&& 128 ≠ 0 then 1 else 0)
      some { s with V := upd V1 x (V1 y * 2 % 256) }
  | .sneReg x y => some { s with PC := if s.V x ≠ s.V y then s.PC + 2 else s.PC }
  | .ldI nnn => some { s with I := nnn }
  | .jpV0 nnn => some { s with PC := nnn + s.V 0 }
  | .rnd x kk =>
      some { s with V := upd s.V x (kk &&& s.randSeq s.randIdx % 256),
                    randIdx := s.randIdx + 1 }
  | .drw x y n =>
      let V1 := upd s.V 15 0
      let vx := V1 x
      let vy := V1 y
      if (List.range n).all (fun yl => (s.I + yl) % 65536 < 4096) then
        let res := (List.range n).foldl (fun st yl =>
          let pixels := s.memory ((s.I + yl) % 65536) % 256
          (List.range 8).foldl (fun st xl =>
            if pixels &&& (128 >>> xl) ≠ 0 then
              drawStep st ((vx + xl + (vy + yl) * 64) % 65536 % 2048)
            else st) st) (s.gfx, 0)
        some { s with gfx := res.1, V := upd V1 15 res.2 }
      else none
  | .skp x =>
      if s.V x < 16 then
        some { s with PC := if s.keyboard (s.V x) then s.PC + 2 else s.PC }
      else none
  | .sknp x =>
      if s.V x < 16 then
        some { s with PC := if ¬ s.keyboard (s.V x) then s.PC + 2 else s.PC }
      else none
  | .ldDelay x => some { s with V := upd s.V x s.delay }
  | .ldKey x =>
      match (List.range 16).foldl
          (fun acc i => if s.keyboard i then some i else acc) none with
      | some k => some { s with V := upd s.V x k }
      | none => some { s with PC := s.PC - 2 }
  | .setDelay x => some { s with delay := s.V x }
  | .setSound x => some { s with sound := s.V x }
  | .addI x =>
      some { s with I := (s.I + s.V x) % 65536,
                    V := upd s.V 15 (if 65536 ≤ s.I + s.V x then 1 else 0) }
  | .ldFont x => some { s with I := s.V x * 5 % 256 }
  | .bcd x =>
      if s.I + 2 < 4096 then
        let m1 := upd s.memory s.I (s.V x / 100)
        let m2 := upd m1 (s.I + 1) (s.V x / 10 % 10)
        some { s with memory := upd m2 (s.I + 2) (s.V x % 10) }
      else none
  | .store x =>
      if s.I + x < 4096 then
        some { s with
          memory := (List.range (x + 1)).foldl
            (fun m i => upd m (s.I + i) (s.V i)) s.memory,
          I := s.I + x + 1 }
      else none
  | .load x =>
      if s.I + x < 4096 then
        some { s with
          V := (List.range (x + 1)).foldl
            (fun v i => upd v i (s.memory (s.I + i) % 256)) s.V,
          I := s.I + x + 1 }
      else none
  | .invalid => none

/-- The big-endian 16-bit instruction word at the program counter. -/
def instrAt (s : Chip8) : Nat :=
  s.memory s.PC % 256 * 256 + s.memory (s.PC + 1) % 256

/-- The engine step `Chip8::execute_instruction`: fetch the two instruction bytes at `PC`
(bounds-checked, as indexing `[u8; 4096]` is), advance `PC` by 2, then
dispatch on the four nibbles.  `none` models a panic. -/
def execute_instruction (s : Chip8) : Option Chip8 :=
  if s.PC + 1 < 4096 then
    exec_opcode { s with PC := s.PC + 2 } (instrAt s)
  else none

/-- Setter `Chip8::set_key`: bounds-checked keyboard update, out-of-range ignored. -/
def set_key (s : Chip8) (key : Nat) (state : Bool) : Chip8 :=
  if key < 16 then { s with keyboard := updB s.keyboard key state } else s

/-- Query `Chip8::get_pixel`: read framebuffer cell `y * 64 + x` (the index is
bounds-checked by the `[u8; 2048]` indexing; `none` models the panic). -/
def get_pixel (s : Chip8) (x y : Nat) : Option Bool :=
  if y * 64 + x < 2048 then some (decide (s.gfx (y * 64 + x) ≠ 0)) else none

/-- Timer decrement `Chip8::decrement_delay`. -/
def decrement_delay (s : Chip8) : Chip8 :=
  if 0 < s.delay then { s with delay := s.delay - 1 } else s

/-- Timer query `Chip8::sound_tick`: returns whether a tone plays, and the new state. -/
def sound_tick (s : Chip8) : Bool × Chip8 :=
  if 0 < s.sound then (true, { s with sound := s.sound - 1 }) else (false, s)

/-! ## Basic facts about `upd` -/

theorem upd_eq (f : Nat → Nat) (i v : Nat) : upd f i v i = v := by
  simp [upd]

theorem upd_ne (f : Nat → Nat) (i v j : Nat) (h : j ≠ i) : upd f i v j = f j := by
  simp [upd, h]

/-! ## The DRW pixel loop, flattened

The nested `for yl`/`for xl` loops of the DRW arm visit, in order, one
framebuffer index per set sprite bit.  `drawIndexList` is that list of visited
indices; the nested fold of the DRW arm equals the flat fold of `drawStep`
over it. -/

/-- Framebuffer indices visited by one sprite row, in `xl` order. -/
def rowIndices (pixels vx vy yl : Nat) : List Nat :=
  (List.range 8).filterMap fun xl =>
    if pixels &&& (128 >>> xl) ≠ 0 then
      some ((vx + xl + (vy + yl) * 64) % 65536 % 2048)
    else none

/-- All framebuffer indices visited by a DRW, in visit order. -/
def drawIndexList (mem : Nat → Nat) (I vx vy n : Nat) : List Nat :=
  (List.range n).flatMap fun yl =>
    rowIndices (mem ((I + yl) % 65536) % 256) vx vy yl

theorem foldl_ite_filterMap {α β γ : Type} (p : α → Prop) [DecidablePred p]
    (f : γ → β → γ) (h : α → β) (l : List α) :
    ∀ st : γ, l.foldl (fun st a => if p a then f st (h a) else st) st
      = (l.filterMap fun a => if p a then some (h a) else none).foldl f st := by
  induction l with
  | nil => intro st; rfl
  | cons a t ih =>
      intro st
      by_cases hp : p a <;> simp [List.filterMap_cons, hp, ih]

theorem foldl_flatMap {α β γ : Type} (f : γ → β → γ) (g : α → List β)
    (l : List α) : ∀ st : γ,
    (l.flatMap g).foldl f st = l.foldl (fun st a => (g a).foldl f st) st := by
  induction l with
  | nil => intro st; rfl
  | cons a t ih => intro st; simp [List.flatMap_cons, List.foldl_append, ih]

theorem draw_foldl (mem : Nat → Nat) (I vx vy n : Nat) (st : (Nat → Nat) × Nat) :
    (List.range n).foldl (fun st yl =>
      (List.range 8).foldl (fun st xl =>
        if mem ((I + yl) % 65536) % 256 &&& (128 >>> xl) ≠ 0 then
          drawStep st ((vx + xl + (vy + yl) * 64) % 65536 % 2048)
        else st) st) st
    = (drawIndexList mem I vx vy n).foldl drawStep st := by
  rw [drawIndexList, foldl_flatMap]
  refine List.foldl_ext _ _ st fun st yl _ => ?_
  rw [rowIndices, foldl_ite_filterMap]

/-- The framebuffer effect of a list of pixel visits: toggle each index. -/
def toggleAll (g : Nat → Nat) (L : List Nat) : Nat → Nat :=
  L.foldl (fun g i => upd g i (g i ^^^ 1)) g

theorem drawFold_fst (L : List Nat) :
    ∀ st : (Nat → Nat) × Nat, (L.foldl drawStep st).1 = toggleAll st.1 L := by
  induction L with
  | nil => intro st; rfl
  | cons a t ih => intro st; rw [List.foldl_cons, ih]; rfl

theorem toggleAll_apply (L : List Nat) :
    ∀ (g : Nat → Nat) (c : Nat), toggleAll g L c = g c ^^^ L.count c % 2 := by
  induction L with
  | nil => intro g c; simp [toggleAll]
  | cons a t ih =>
      intro g c
      have step : toggleAll g (a :: t) = toggleAll (upd g a (g a ^^^ 1)) t := rfl
      rw [step, ih, List.count_cons]
      by_cases hca : c = a
      · subst hca
        rw [upd_eq, beq_self_eq_true c, if_pos rfl, Nat.xor_assoc]
        congr 1
        rcases Nat.mod_two_eq_zero_or_one (t.count c) with h2 | h2
        · rw [h2, (by omega : (t.count c + 1) % 2 = 1)]; decide
        · rw [h2, (by omega : (t.count c + 1) % 2 = 0)]; decide
      · rw [upd_ne _ _ _ _ hca]
        have hac : (a == c) = false := beq_eq_false_iff_ne.2 (Ne.symm hca)
        rw [hac]
        simp

theorem toggleAll_toggleAll (g : Nat → Nat) (L : List Nat) (c : Nat) :
    toggleAll (toggleAll g L) L c = g c := by
  rw [toggleAll_apply, toggleAll_apply, Nat.xor_cancel_right]

theorem toggleAll_le_one (g : Nat → Nat) (L : List Nat) (c : Nat)
    (h : g c ≤ 1) : toggleAll g L c ≤ 1 := by
  rw [toggleAll_apply]
  rcases Nat.mod_two_eq_zero_or_one (L.count c) with h2 | h2 <;> rw [h2] <;>
    interval_cases h3 : g c <;> decide

theorem drawFold_snd_of_one (L : List Nat) :
    ∀ g : Nat → Nat, (L.foldl drawStep (g, 1)).2 = 1 := by
  induction L with
  | nil => intro g; rfl
  | cons a t ih =>
      intro g
      have : drawStep (g, 1) a = (upd g a (g a ^^^ 1), 1) := by
        simp [drawStep, ite_self]
      rw [List.foldl_cons, this, ih]

theorem drawFold_snd_visit (L : List Nat) :
    ∀ (g : Nat → Nat) (v k : Nat) (hk : k < L.length),
      toggleAll g (L.take k) (L.get ⟨k, hk⟩) = 1 →
      (L.foldl drawStep (g, v)).2 = 1 := by
  induction L with
  | nil => intro g v k hk; exact fun _ => absurd hk (by simp)
  | cons a t ih =>
      intro g v k hk hval
      match k with
      | 0 =>
          have ha : g a = 1 := hval
          have : drawStep (g, v) a = (upd g a (g a ^^^ 1), 1) := by
            simp [drawStep, ha]
          rw [List.foldl_cons, this, drawFold_snd_of_one]
      | k + 1 =>
          have hk' : k < t.length := by simpa using hk
          have hval' : toggleAll (upd g a (g a ^^^ 1)) (t.take k)
              (t.get ⟨k, hk'⟩) = 1 := by
            have h1 : (a :: t).take (k + 1) = a :: t.take k := rfl
            have h2 : (a :: t).get ⟨k + 1, hk⟩ = t.get ⟨k, hk'⟩ := rfl
            rw [h1] at hval
            rw [h2] at hval
            exact hval
          rw [List.foldl_cons]
          exact ih (upd g a (g a ^^^ 1)) (if g a = 1 then 1 else v) k hk' hval'

theorem exists_last_occ (c : Nat) :
    ∀ L : List Nat, c ∈ L →
      ∃ k, ∃ hk : k < L.length,
        L.get ⟨k, hk⟩ = c ∧ (L.take k).count c + 1 = L.count c := by
  intro L
  induction L with
  | nil => intro h; exact absurd h (by simp)
  | cons a t ih =>
      intro hmem
      by_cases hct : c ∈ t
      · obtain ⟨k, hk, hget, hcnt⟩ := ih hct
        refine ⟨k + 1, by simpa using Nat.succ_lt_succ hk, ?_, ?_⟩
        · exact hget
        · have h1 : (a :: t).take (k + 1) = a :: t.take k := rfl
          rw [h1, List.count_cons, List.count_cons]
          omega
      · have hca : c = a := by
          rcases List.mem_cons.1 hmem with h | h
          · exact h
          · exact absurd h hct
        refine ⟨0, by simp, hca.symm, ?_⟩
        have h0 : t.count c = 0 := List.count_eq_zero.2 hct
        rw [List.count_cons]
        subst hca
        simp [h0]

/-- If some cell visited by the pixel list was off beforehand, then re-drawing
the same pixel list over the once-drawn framebuffer reports a collision. -/
theorem second_draw_collision (g : Nat → Nat) (L : List Nat) (c : Nat)
    (hc : c ∈ L) (hg : g c = 0) (v : Nat) :
    (L.foldl drawStep (toggleAll g L, v)).2 = 1 := by
  obtain ⟨k, hk, hget, hcnt⟩ := exists_last_occ c L hc
  refine drawFold_snd_visit L (toggleAll g L) v k hk ?_
  rw [hget, toggleAll_apply, toggleAll_apply, hg, Nat.zero_xor]
  have hpos : 0 < L.count c := List.count_pos_iff.2 hc
  rcases Nat.mod_two_eq_zero_or_one (L.count c) with h2 | h2
  · rw [h2, (by omega : (L.take k).count c % 2 = 1)]; decide
  · rw [h2, (by omega : (L.take k).count c % 2 = 0)]; decide

/-- Characterization of a successful DRW step: the framebuffer is toggled at
the visited indices and `V[0xF]` receives the collision accumulator. -/
theorem exec_drw (s : Chip8) (instr x y n : Nat) (hd : decode instr = .drw x y n)
    (hrows : ∀ yl < n, (s.I + yl) % 65536 < 4096) :
    exec_opcode s instr =
      some { s with
        gfx := toggleAll s.gfx
          (drawIndexList s.memory s.I (upd s.V 15 0 x) (upd s.V 15 0 y) n),
        V := upd (upd s.V 15 0) 15
          ((drawIndexList s.memory s.I (upd s.V 15 0 x) (upd s.V 15 0 y) n).foldl
            drawStep (s.gfx, 0)).2 } := by
  have hall : ((List.range n).all fun yl => decide ((s.I + yl) % 65536 < 4096))
      = true := by
    rw [List.all_eq_true]
    intro yl hyl
    rw [decide_eq_true_eq]
    exact hrows yl (List.mem_range.1 hyl)
  simp only [exec_opcode, hd, hall, if_true]
  rw [draw_foldl s.memory s.I (upd s.V 15 0 x) (upd s.V 15 0 y) n (s.gfx, 0)]
  rw [drawFold_fst]

/-! ## The Fx0A key-scan loop

`for i in 0..16 { if self.key_pressed(i) { self.V[x] = i; pressed = true } }`
keeps overwriting `V[x]`, so the value that survives is the **last** (highest)
pressed index the loop sees. -/

/-- The accumulator of the Fx0A scan over keys `0..n`. -/
def lastPressed (kb : Nat → Bool) (n : Nat) : Option Nat :=
  (List.range n).foldl (fun acc i => if kb i then some i else acc) none

theorem lastPressed_succ (kb : Nat → Bool) (n : Nat) :
    lastPressed kb (n + 1) = if kb n then some n else lastPressed kb n := by
  rw [lastPressed, List.range_succ, List.foldl_append]
  rfl

theorem lastPressed_none_iff (kb : Nat → Bool) :
    ∀ n, lastPressed kb n = none ↔ ∀ j < n, kb j = false := by
  intro n
  induction n with
  | zero => simp [lastPressed]
  | succ n ih =>
      rw [lastPressed_succ]
      cases hn : kb n with
      | true =>
          rw [if_pos rfl]
          constructor
          · intro h; cases h
          · intro h
            have h2 := h n (by omega)
            rw [hn] at h2
            cases h2
      | false =>
          rw [if_neg (by simp), ih]
          constructor
          · intro h j hj
            rcases Nat.lt_succ_iff_lt_or_eq.1 hj with h2 | h2
            · exact h j h2
            · subst h2; exact hn
          · intro h j hj; exact h j (by omega)

theorem lastPressed_some (kb : Nat → Bool) :
    ∀ n k, lastPressed kb n = some k →
      kb k = true ∧ k < n ∧ ∀ j, k < j → j < n → kb j = false := by
  intro n
  induction n with
  | zero => intro k h; exact absurd h (by simp [lastPressed])
  | succ n ih =>
      intro k h
      rw [lastPressed_succ] at h
      cases hn : kb n with
      | true =>
          rw [hn, if_pos rfl] at h
          obtain rfl : n = k := by simpa using h
          exact ⟨hn, by omega, fun j h1 h2 => by omega⟩
      | false =>
          rw [hn, if_neg (by simp)] at h
          obtain ⟨h1, h2, h3⟩ := ih k h
          refine ⟨h1, by omega, fun j hj1 hj2 => ?_⟩
          rcases Nat.lt_succ_iff_lt_or_eq.1 hj2 with h4 | h4
          · exact h3 j hj1 h4
          · subst h4; exact hn

/-! ## The Fx55/Fx65 block-transfer loops -/

theorem store_foldl_read (I0 : Nat) (Vf m0 : Nat → Nat) :
    ∀ k j, ((List.range k).foldl (fun m i => upd m (I0 + i) (Vf i)) m0) (I0 + j)
      = if j < k then Vf j else m0 (I0 + j) := by
  intro k
  induction k with
  | zero => intro j; simp
  | succ k ih =>
      intro j
      rw [List.range_succ, List.foldl_append, List.foldl_cons, List.foldl_nil]
      by_cases hj : j = k
      · subst hj; rw [upd_eq, if_pos (by omega)]
      · rw [upd_ne _ _ _ _ (by omega), ih]
        by_cases h2 : j < k
        · rw [if_pos h2, if_pos (by omega)]
        · rw [if_neg h2, if_neg (by omega)]

theorem load_foldl_read (I0 : Nat) (mem : Nat → Nat) (V0 : Nat → Nat) :
    ∀ k j, ((List.range k).foldl (fun v i => upd v i (mem (I0 + i) % 256)) V0) j
      = if j < k then mem (I0 + j) % 256 else V0 j := by
  intro k
  induction k with
  | zero => intro j; simp
  | succ k ih =>
      intro j
      rw [List.range_succ, List.foldl_append, List.foldl_cons, List.foldl_nil]
      by_cases hj : j = k
      · subst hj; rw [upd_eq, if_pos (by omega)]
      · rw [upd_ne _ _ _ _ hj, ih]
        by_cases h2 : j < k
        · rw [if_pos h2, if_pos (by omega)]
        · rw [if_neg h2, if_neg (by omega)]

/-! ## Concrete machine states used as test inputs -/

/-- An all-zero machine state with `PC = 0x200`. -/
def zeroState : Chip8 where
  memory := fun _ => 0
  V := fun _ => 0
  I := 0
  PC := 512
  delay := 0
  sound := 0
  SP := 0
  stack := fun _ => 0
  randSeq := fun _ => 0
  randIdx := 0
  gfx := fun _ => 0
  keyboard := fun _ => false

/-- Instruction `8125` (SUB V1, V2) with `V1 = 5`, `V2 = 3`. -/
def subState : Chip8 :=
  { zeroState with
    memory := fun i => if i = 512 then 0x81 else if i = 513 then 0x25 else 0,
    V := fun i => if i = 1 then 5 else if i = 2 then 3 else 0 }

/-- Instruction `8127` (SUBN V1, V2) with `V1 = 3`, `V2 = 5`. -/
def subnState : Chip8 :=
  { zeroState with
    memory := fun i => if i = 512 then 0x81 else if i = 513 then 0x27 else 0,
    V := fun i => if i = 1 then 3 else if i = 2 then 5 else 0 }

/-- Claim C1. The SUB/SUBN no-borrow flag convention.  The code stores the raw
borrow bit of `overflowing_sub` into `V[0xF]` instead of its logical NOT:
with `V1 = 5 ≥ V2 = 3` (no borrow) the SUB `8125` leaves `V[0xF] = 0`, and
with `V2 = 5 ≥ V1 = 3` the SUBN `8127` also leaves `V[0xF] = 0`, though the
claim (and the architecture) require `1` in both runs.  The numeric results
`(Vx - Vy) mod 256` resp. `(Vy - Vx) mod 256` are `2` as claimed. -/
theorem sub_subn_flag_inverted :
    (execute_instruction subState).map (fun t => (t.V 1, t.V 15)) = some (2, 0) ∧
    (execute_instruction subnState).map (fun t => (t.V 1, t.V 15)) = some (2, 0) := by
  exact ⟨by decide, by decide⟩

/-- Instruction `F329` (LD F, V3) with `V3 = 100`. -/
def fontState : Chip8 :=
  { zeroState with
    memory := fun i => if i = 512 then 0xF3 else if i = 513 then 0x29 else 0,
    V := fun i => if i = 3 then 100 else 0 }

/-- Instruction `F329` (LD F, V3) with `V3 = 10`. -/
def fontStateSmall : Chip8 :=
  { zeroState with
    memory := fun i => if i = 512 then 0xF3 else if i = 513 then 0x29 else 0,
    V := fun i => if i = 3 then 10 else 0 }

/-- Claim C7, counterexample. `Fx29` computes `self.V[x] * 5` in `u8`
arithmetic, so for `V3 = 100` the product wraps to `500 mod 256 = 244`
(in a release build; a debug build aborts on the overflow) — the index
register does not receive `v × 5 = 500`. -/
theorem fx29_overflow_counterexample :
    (execute_instruction fontState).map (fun t => t.I) = some 244 ∧
    ¬ (execute_instruction fontState).map (fun t => t.I) = some 500 := by
  exact ⟨by decide, by decide⟩

/-- Claim C7, amended. `Fx29` sets the index register to `(Vx * 5) mod 256`;
this equals `Vx * 5` exactly when `Vx ≤ 51`, which covers every glyph
index `0..=0xF`. -/
theorem fx29_font_address (s : Chip8) (x : Nat)
    (hpc : s.PC + 1 < 4096) (hd : decode (instrAt s) = Op.ldFont x) :
    ∃ t, execute_instruction s = some t ∧ t.I = s.V x * 5 % 256 ∧
      (s.V x ≤ 51 → t.I = s.V x * 5) := by
  have he : execute_instruction s
      = some { s with PC := s.PC + 2, I := s.V x * 5 % 256 } := by
    unfold execute_instruction
    rw [if_pos hpc]
    simp [exec_opcode, hd]
  refine ⟨_, he, rfl, fun hv => ?_⟩
  exact Nat.mod_eq_of_lt (by omega)

/-- Claim C7, witness. The amended theorem applied to `V3 = 10`: the index
register becomes `50`. -/
theorem fx29_font_address_witness :
    ∃ t, execute_instruction fontStateSmall = some t ∧
      t.I = fontStateSmall.V 3 * 5 % 256 ∧
      (fontStateSmall.V 3 ≤ 51 → t.I = fontStateSmall.V 3 * 5) :=
  fx29_font_address fontStateSmall 3 (by decide) (by decide)

/-- Instruction `2200` (CALL 0x200) with a full call stack (`SP = 16`). -/
def callOverflowState : Chip8 :=
  { zeroState with
    memory := fun i => if i = 512 then 0x22 else if i = 513 then 0x00 else 0,
    SP := 16 }

/-- Instruction `00EE` (RET) with an empty call stack (`SP = 0`). -/
def retUnderflowState : Chip8 :=
  { zeroState with
    memory := fun i => if i = 512 then 0x00 else if i = 513 then 0xEE else 0 }

/-- Claim C5, counterexample. CALL with 16 stacked return addresses indexes
`stack[16]` and RET with an empty stack decrements `SP: u8` below zero; both
abort with a Rust panic (modelled `none`).  No fault value is reported —
`execute_instruction` returns `()` in the code and has no fault channel. -/
theorem stack_faults_panic :
    execute_instruction callOverflowState = none ∧
    execute_instruction retUnderflowState = none := by
  exact ⟨by rfl, by rfl⟩

/-- Claim C5, amended. A CALL executed with `SP ≥ 16` and a RET executed with
`SP = 0` abort (panic, modelled `none`) rather than reporting a recoverable
fault; neither performs a silent out-of-bounds stack access. -/
theorem stack_overflow_underflow_abort (s : Chip8) (hpc : s.PC + 1 < 4096) :
    (∀ nnn, decode (instrAt s) = Op.call nnn → 16 ≤ s.SP →
      execute_instruction s = none) ∧
    (decode (instrAt s) = Op.ret → s.SP = 0 → execute_instruction s = none) := by
  constructor
  · intro nnn hd hsp
    unfold execute_instruction
    rw [if_pos hpc]
    simp only [exec_opcode, hd]
    rw [if_neg (by simp; omega)]
  · intro hd hsp
    unfold execute_instruction
    rw [if_pos hpc]
    simp only [exec_opcode, hd]
    rw [if_pos hsp]

/-- Claim C5, witness. The amended theorem applied to the two concrete faulting
states. -/
theorem stack_overflow_underflow_abort_witness :
    execute_instruction callOverflowState = none ∧
    execute_instruction retUnderflowState = none :=
  ⟨(stack_overflow_underflow_abort callOverflowState (by decide)).1 512
      (by decide) (by decide),
    (stack_overflow_underflow_abort retUnderflowState (by decide)).2
      (by decide) (by decide)⟩

/-- Instruction `F533` (LD B, V5) with `I = 4094`: the BCD write at `I + 2`
would land on address 4096, one past the end of memory. -/
def bcdOobState : Chip8 :=
  { zeroState with
    memory := fun i => if i = 512 then 0xF5 else if i = 513 then 0x33 else 0,
    I := 4094,
    V := fun i => if i = 5 then 157 else 0 }

/-- A state whose program counter points at the last memory byte, so the
two-byte instruction fetch itself runs past the end of memory. -/
def pcOobState : Chip8 :=
  { zeroState with PC := 4095 }

/-- Claim C4, counterexample. A BCD (`Fx33`) executed with `I = 4094` must
write addresses 4094, 4095 and 4096; the code neither masks 4096 into the
address space nor reports a fault value — the `[u8; 4096]` indexing panics
(modelled `none`), aborting execution. -/
theorem bcd_oob_panics : execute_instruction bcdOobState = none := by
  rfl

/-- Claim C4, amended. Every operand- or state-derived memory address is
bounds-checked by the `[u8; 4096]` indexing: an out-of-range instruction
fetch, BCD write, or block transfer aborts with a panic (modelled `none`)
instead of being masked into the address space or reported as a recoverable
fault; no access is silently performed out of bounds.  (The only masked
address in the engine is DRW's framebuffer index, taken `% 2048`.) -/
theorem oob_memory_access_aborts :
    (∀ s : Chip8, ¬ s.PC + 1 < 4096 → execute_instruction s = none) ∧
    (∀ s : Chip8, ∀ x, s.PC + 1 < 4096 → decode (instrAt s) = Op.bcd x →
      ¬ s.I + 2 < 4096 → execute_instruction s = none) ∧
    (∀ s : Chip8, ∀ x, s.PC + 1 < 4096 → decode (instrAt s) = Op.store x →
      ¬ s.I + x < 4096 → execute_instruction s = none) ∧
    (∀ s : Chip8, ∀ x, s.PC + 1 < 4096 → decode (instrAt s) = Op.load x →
      ¬ s.I + x < 4096 → execute_instruction s = none) ∧
    (∀ s : Chip8, ∀ x y n, s.PC + 1 < 4096 → decode (instrAt s) = Op.drw x y n →
      (∃ yl, yl < n ∧ ¬ (s.I + yl) % 65536 < 4096) →
      execute_instruction s = none) := by
  refine ⟨fun s h => ?_, fun s x hpc hd hI => ?_, fun s x hpc hd hI => ?_,
    fun s x hpc hd hI => ?_, fun s x y n hpc hd hrow => ?_⟩
  · unfold execute_instruction
    rw [if_neg h]
  · unfold execute_instruction
    rw [if_pos hpc]
    simp only [exec_opcode, hd]
    rw [if_neg hI]
  · unfold execute_instruction
    rw [if_pos hpc]
    simp only [exec_opcode, hd]
    rw [if_neg hI]
  · unfold execute_instruction
    rw [if_pos hpc]
    simp only [exec_opcode, hd]
    rw [if_neg hI]
  · unfold execute_instruction
    rw [if_pos hpc]
    simp only [exec_opcode, hd]
    rw [if_neg]
    intro hall
    obtain ⟨yl, hyl, hge⟩ := hrow
    rw [List.all_eq_true] at hall
    have h2 := hall yl (List.mem_range.2 hyl)
    rw [decide_eq_true_eq] at h2
    exact hge h2

/-- Claim C4, witness. The amended theorem's fetch and BCD clauses applied to
the two concrete states above. -/
theorem oob_memory_access_aborts_witness :
    execute_instruction pcOobState = none ∧
    execute_instruction bcdOobState = none :=
  ⟨oob_memory_access_aborts.1 pcOobState (by decide),
    oob_memory_access_aborts.2.1 bcdOobState 5 (by decide) (by decide)
      (by decide)⟩

/-- Claim C2, amended. `Fx0A` with no key pressed returns the machine unchanged
(the engine rewinds the `PC` it just advanced, so repeated invocations
stall); with at least one key pressed, `PC` advances by 2 and `V[x]`
receives the **highest**-indexed pressed key (the scan loop has no `break`,
so each pressed key overwrites the previous one). -/
theorem fx0a_stall_and_highest_key (s : Chip8) (x : Nat)
    (hpc : s.PC + 1 < 4096) (hd : decode (instrAt s) = Op.ldKey x) :
    ((∀ j, j < 16 → s.keyboard j = false) → execute_instruction s = some s) ∧
    ((∃ j, j < 16 ∧ s.keyboard j = true) →
      ∃ k, s.keyboard k = true ∧ k < 16 ∧
        (∀ j, k < j → j < 16 → s.keyboard j = false) ∧
        execute_instruction s
          = some { s with PC := s.PC + 2, V := upd s.V x k }) := by
  constructor
  · intro h
    have hnone : lastPressed s.keyboard 16 = none :=
      (lastPressed_none_iff s.keyboard 16).2 h
    unfold execute_instruction
    rw [if_pos hpc]
    simp only [exec_opcode, hd]
    rw [show (List.range 16).foldl
        (fun acc i => if s.keyboard i then some i else acc) none = none
      from hnone]
    have h2 : s.PC + 2 - 2 = s.PC := by omega
    simp only [h2]
  · intro h
    cases hlp : lastPressed s.keyboard 16 with
    | none =>
        obtain ⟨j, hj, hkey⟩ := h
        have := (lastPressed_none_iff s.keyboard 16).1 hlp j hj
        rw [hkey] at this
        cases this
    | some k =>
        obtain ⟨h1, h2, h3⟩ := lastPressed_some s.keyboard 16 k hlp
        refine ⟨k, h1, h2, h3, ?_⟩
        unfold execute_instruction
        rw [if_pos hpc]
        simp only [exec_opcode, hd]
        rw [show (List.range 16).foldl
            (fun acc i => if s.keyboard i then some i else acc) none = some k
          from hlp]

/-- Instruction `F00A` (LD V0, K) with keys 2 and 5 both pressed. -/
def twoKeysState : Chip8 :=
  { zeroState with
    memory := fun i => if i = 512 then 0xF0 else if i = 513 then 0x0A else 0,
    keyboard := fun i => i == 2 || i == 5 }

/-- Instruction `F00A` (LD V0, K) with no key pressed. -/
def noKeyState : Chip8 :=
  { zeroState with
    memory := fun i => if i = 512 then 0xF0 else if i = 513 then 0x0A else 0 }

/-- Claim C2, counterexample. With keys 2 and 5 pressed, `F00A` stores 5 — the
highest pressed index — in `V0`, not the lowest-indexed key 2 claimed. -/
theorem fx0a_stores_highest_key :
    (execute_instruction twoKeysState).map (fun t => (t.V 0, t.PC))
      = some (5, 514) ∧
    ¬ (execute_instruction twoKeysState).map (fun t => t.V 0) = some 2 := by
  exact ⟨by decide, by decide⟩

/-- Claim C2, witness. The amended theorem applied to a no-key state (stall)
and to the two-key state (highest pressed key stored, `PC` advanced). -/
theorem fx0a_stall_and_highest_key_witness :
    execute_instruction noKeyState = some noKeyState ∧
    ∃ k, twoKeysState.keyboard k = true ∧ k < 16 ∧
      (∀ j, k < j → j < 16 → twoKeysState.keyboard j = false) ∧
      execute_instruction twoKeysState
        = some { twoKeysState with
                 PC := twoKeysState.PC + 2
                 V := upd twoKeysState.V 0 k } :=
  ⟨(fx0a_stall_and_highest_key noKeyState 0 (by decide) (by decide)).1
      (by decide),
    (fx0a_stall_and_highest_key twoKeysState 0 (by decide) (by decide)).2
      ⟨2, by decide, by decide⟩⟩

/-- Claim C6. `Fx55`/`Fx65` block transfers: with the transfer range in bounds,
registers `0..=x` are copied to (resp. from) memory starting at the
pre-instruction index register, and the index register afterwards has
advanced by exactly `x + 1` (`self.I += x + 1` after the loop). -/
theorem fx55_fx65_auto_increment (s : Chip8) (x : Nat)
    (hpc : s.PC + 1 < 4096) (hI : s.I + x < 4096)
    (hbytes : ∀ j, s.memory j < 256) :
    (decode (instrAt s) = Op.store x →
      ∃ t, execute_instruction s = some t ∧ t.I = s.I + x + 1 ∧
        ∀ i, i ≤ x → t.memory (s.I + i) = s.V i) ∧
    (decode (instrAt s) = Op.load x →
      ∃ t, execute_instruction s = some t ∧ t.I = s.I + x + 1 ∧
        ∀ i, i ≤ x → t.V i = s.memory (s.I + i)) := by
  constructor
  · intro hd
    have he : execute_instruction s = some { s with
        PC := s.PC + 2
        memory := (List.range (x + 1)).foldl
          (fun m i => upd m (s.I + i) (s.V i)) s.memory
        I := s.I + x + 1 } := by
      unfold execute_instruction
      rw [if_pos hpc]
      simp only [exec_opcode, hd]
      rw [if_pos hI]
    refine ⟨_, he, rfl, fun i hi => ?_⟩
    show ((List.range (x + 1)).foldl
      (fun m i => upd m (s.I + i) (s.V i)) s.memory) (s.I + i) = s.V i
    rw [store_foldl_read, if_pos (by omega)]
  · intro hd
    have he : execute_instruction s = some { s with
        PC := s.PC + 2
        V := (List.range (x + 1)).foldl
          (fun v i => upd v i (s.memory (s.I + i) % 256)) s.V
        I := s.I + x + 1 } := by
      unfold execute_instruction
      rw [if_pos hpc]
      simp only [exec_opcode, hd]
      rw [if_pos hI]
    refine ⟨_, he, rfl, fun i hi => ?_⟩
    show ((List.range (x + 1)).foldl
      (fun v i => upd v i (s.memory (s.I + i) % 256)) s.V) i = s.memory (s.I + i)
    rw [load_foldl_read, if_pos (by omega)]
    exact Nat.mod_eq_of_lt (hbytes _)

/-- Instruction `F255` (LD [I], V2) with `I = 1000`. -/
def storeWitState : Chip8 :=
  { zeroState with
    memory := fun i => if i = 512 then 0xF2 else if i = 513 then 0x55 else 0,
    I := 1000,
    V := fun i => if i < 16 then i + 1 else 0 }

/-- Instruction `F265` (LD V2, [I]) with `I = 1000` and bytes 9 at
`1000..1002`. -/
def loadWitState : Chip8 :=
  { zeroState with
    memory := fun i => if i = 512 then 0xF2 else if i = 513 then 0x65
      else if 1000 ≤ i ∧ i < 1003 then 9 else 0,
    I := 1000 }

/-- Claim C6, witness. The theorem applied to concrete `F255` and `F265`
states. -/
theorem fx55_fx65_auto_increment_witness :
    (∃ t, execute_instruction storeWitState = some t ∧
      t.I = storeWitState.I + 2 + 1 ∧
      ∀ i, i ≤ 2 → t.memory (storeWitState.I + i) = storeWitState.V i) ∧
    (∃ t, execute_instruction loadWitState = some t ∧
      t.I = loadWitState.I + 2 + 1 ∧
      ∀ i, i ≤ 2 → t.V i = loadWitState.memory (loadWitState.I + i)) :=
  ⟨(fx55_fx65_auto_increment storeWitState 2 (by decide) (by decide)
      (by intro j; show (if j = 512 then 0xF2 else if j = 513 then 0x55 else 0)
            < 256; split_ifs <;> omega)).1 (by decide),
    (fx55_fx65_auto_increment loadWitState 2 (by decide) (by decide)
      (by intro j; show (if j = 512 then 0xF2 else if j = 513 then 0x65
            else if 1000 ≤ j ∧ j < 1003 then 9 else 0) < 256;
          split_ifs <;> omega)).2 (by decide)⟩

/-- Instruction `D011` (DRW V0, V1, 1) with `V0 = 60`, `V1 = 0`, and sprite
row byte `0xFF` at `I = 768`, on a cleared framebuffer. -/
def wrapState : Chip8 :=
  { zeroState with
    memory := fun i => if i = 512 then 0xD0 else if i = 513 then 0x11
      else if i = 768 then 0xFF else 0,
    I := 768,
    V := fun i => if i = 0 then 60 else 0 }

/-- Claim C3, counterexample. Drawing an all-ones 8-pixel row at origin
`(60, 0)`: the code wraps the **linear** offset `% 2048`, so sprite columns
64–67 land at cells 64–67 — row **1**, columns 0–3 — and row 0's cells 0–3
stay off, contrary to the claim that they light up in the same row 0. -/
theorem drw_wrap_counterexample :
    (execute_instruction wrapState).map
      (fun t => (t.gfx 0, t.gfx 1, t.gfx 2, t.gfx 3,
                 t.gfx 60, t.gfx 63, t.gfx 64, t.gfx 67))
      = some (0, 0, 0, 0, 1, 1, 1, 1) := by
  rfl

/-- Claim C3, amended. An all-ones 8-pixel sprite row drawn at origin
`(60, 0)` toggles cells `60..67` of the linear framebuffer: sprite columns
60–63 stay in row 0 (`(60+xl)/64 = 0` for `xl < 4`), while sprite columns
64–67 wrap — via the linear offset `% 2048` — into row **1**, columns 0–3
(`(60+xl)/64 = 1` and `(60+xl) % 64 = xl - 4` for `4 ≤ xl < 8`), not into
row 0. -/
theorem drw_row_wrap (s : Chip8) (x y : Nat)
    (hpc : s.PC + 1 < 4096) (hd : decode (instrAt s) = Op.drw x y 1)
    (hx : x ≠ 15) (hy : y ≠ 15)
    (hI : s.I < 4096) (hsprite : s.memory s.I = 0xFF)
    (hvx : s.V x = 60) (hvy : s.V y = 0) :
    ∃ t, execute_instruction s = some t ∧
      (∀ xl, xl < 8 → t.gfx (60 + xl) = s.gfx (60 + xl) ^^^ 1) ∧
      (∀ i, i < 60 ∨ 67 < i → t.gfx i = s.gfx i) ∧
      (∀ xl, xl < 4 → (60 + xl) / 64 = 0) ∧
      (∀ xl, 4 ≤ xl → xl < 8 → (60 + xl) / 64 = 1 ∧ (60 + xl) % 64 = xl - 4) := by
  have hrows : ∀ yl, yl < 1 → (s.I + yl) % 65536 < 4096 := by
    intro yl hyl
    omega
  have hL : drawIndexList s.memory s.I (upd s.V 15 0 x) (upd s.V 15 0 y) 1
      = [60, 61, 62, 63, 64, 65, 66, 67] := by
    rw [upd_ne _ _ _ _ hx, upd_ne _ _ _ _ hy, hvx, hvy]
    unfold drawIndexList
    rw [(by decide : List.range 1 = [0])]
    simp only [List.flatMap_cons, List.flatMap_nil, List.append_nil]
    rw [(by omega : (s.I + 0) % 65536 = s.I), hsprite]
    decide
  unfold execute_instruction
  rw [if_pos hpc,
    exec_drw { s with PC := s.PC + 2 } (instrAt s) x y 1 hd
      (fun yl hyl => hrows yl hyl)]
  refine ⟨_, rfl, fun xl hxl => ?_, fun i hi => ?_, fun xl h => by omega,
    fun xl h1 h2 => by constructor <;> omega⟩
  · show toggleAll s.gfx
      (drawIndexList s.memory s.I (upd s.V 15 0 x) (upd s.V 15 0 y) 1) (60 + xl)
      = s.gfx (60 + xl) ^^^ 1
    rw [hL, toggleAll_apply]
    interval_cases xl <;> congr 1
  · show toggleAll s.gfx
      (drawIndexList s.memory s.I (upd s.V 15 0 x) (upd s.V 15 0 y) 1) i
      = s.gfx i
    rw [hL, toggleAll_apply, List.count_eq_zero.2 (by simp; omega), Nat.xor_zero]

/-- Claim C3, witness. The amended theorem applied to the concrete `D011`
state with origin `(60, 0)` and sprite byte `0xFF`. -/
theorem drw_row_wrap_witness :
    ∃ t, execute_instruction wrapState = some t ∧
      (∀ xl, xl < 8 → t.gfx (60 + xl) = wrapState.gfx (60 + xl) ^^^ 1) ∧
      (∀ i, i < 60 ∨ 67 < i → t.gfx i = wrapState.gfx i) ∧
      (∀ xl, xl < 4 → (60 + xl) / 64 = 0) ∧
      (∀ xl, 4 ≤ xl → xl < 8 → (60 + xl) / 64 = 1 ∧ (60 + xl) % 64 = xl - 4) :=
  drw_row_wrap wrapState 0 1 (by decide) (by decide) (by decide) (by decide)
    (by decide) (by decide) (by decide) (by decide)

/-- A successful DRW, at the `execute_instruction` level. -/
theorem execute_drw_some (s : Chip8) (x y n : Nat) (hpc : s.PC + 1 < 4096)
    (hd : decode (instrAt s) = Op.drw x y n)
    (hrows : ∀ yl, yl < n → (s.I + yl) % 65536 < 4096) :
    execute_instruction s = some { s with
      PC := s.PC + 2
      gfx := toggleAll s.gfx
        (drawIndexList s.memory s.I (upd s.V 15 0 x) (upd s.V 15 0 y) n)
      V := upd (upd s.V 15 0) 15
        ((drawIndexList s.memory s.I (upd s.V 15 0 x) (upd s.V 15 0 y) n).foldl
          drawStep (s.gfx, 0)).2 } := by
  unfold execute_instruction
  rw [if_pos hpc, exec_drw { s with PC := s.PC + 2 } (instrAt s) x y n hd
    (fun yl hyl => hrows yl hyl)]

/-- A successful DRW, described by the fields of the result state. -/
theorem execute_drw_spec (s : Chip8) (x y n : Nat) (hpc : s.PC + 1 < 4096)
    (hd : decode (instrAt s) = Op.drw x y n)
    (hrows : ∀ yl, yl < n → (s.I + yl) % 65536 < 4096) :
    ∃ t, execute_instruction s = some t ∧
      t.gfx = toggleAll s.gfx
        (drawIndexList s.memory s.I (upd s.V 15 0 x) (upd s.V 15 0 y) n) ∧
      t.V = upd (upd s.V 15 0) 15
        ((drawIndexList s.memory s.I (upd s.V 15 0 x) (upd s.V 15 0 y) n).foldl
          drawStep (s.gfx, 0)).2 ∧
      t.memory = s.memory ∧ t.I = s.I :=
  ⟨_, execute_drw_some s x y n hpc hd hrows, rfl, rfl, rfl, rfl⟩

/-- Claim C8, amended. Executing the same `Dxyn` twice (origin registers not
`V[0xF]`, so they survive the collision-flag write; index register and
sprite memory are untouched by DRW) restores the framebuffer — the XOR
toggle is self-inverse — and the second draw reports collision `V[0xF] = 1`
**provided at least one of the sprite's set pixels targets a cell that was
off before the first draw**.  (If every targeted cell was already on, the
first draw turns them all off and the second draw, re-drawing over dark
cells, reports no collision — see the counterexample.) -/
theorem drw_twice_restores (s : Chip8) (x y n : Nat)
    (hpc : s.PC + 1 < 4096) (hd : decode (instrAt s) = Op.drw x y n)
    (hx : x ≠ 15) (hy : y ≠ 15)
    (hrows : ∀ yl, yl < n → (s.I + yl) % 65536 < 4096)
    (hoff : ∃ c, c ∈ drawIndexList s.memory s.I (s.V x) (s.V y) n ∧
      s.gfx c = 0) :
    ∃ t u, execute_instruction s = some t ∧
      execute_instruction { t with PC := s.PC } = some u ∧
      (∀ i, u.gfx i = s.gfx i) ∧ u.V 15 = 1 := by
  obtain ⟨c, hcL, hc0⟩ := hoff
  have hox : upd s.V 15 0 x = s.V x := upd_ne _ _ _ _ hx
  have hoy : upd s.V 15 0 y = s.V y := upd_ne _ _ _ _ hy
  obtain ⟨t, he1, hgfx1, hV1, hmem1, hI1⟩ := execute_drw_spec s x y n hpc hd hrows
  have hgfx1' : t.gfx
      = toggleAll s.gfx (drawIndexList s.memory s.I (s.V x) (s.V y) n) := by
    rw [hgfx1, hox, hoy]
  have hd2 : decode (instrAt { t with PC := s.PC }) = Op.drw x y n := by
    show decode (t.memory s.PC % 256 * 256 + t.memory (s.PC + 1) % 256)
      = Op.drw x y n
    rw [hmem1]
    exact hd
  have hrows2 : ∀ yl, yl < n →
      (({ t with PC := s.PC } : Chip8).I + yl) % 65536 < 4096 := by
    intro yl hyl
    show (t.I + yl) % 65536 < 4096
    rw [hI1]
    exact hrows yl hyl
  obtain ⟨u, he2, hgfx2, hV2, hmem2, hI2⟩ :=
    execute_drw_spec { t with PC := s.PC } x y n hpc hd2 hrows2
  have hgfx2' : u.gfx = toggleAll t.gfx
      (drawIndexList t.memory t.I (upd t.V 15 0 x) (upd t.V 15 0 y) n) := hgfx2
  have hV2' : u.V = upd (upd t.V 15 0) 15
      ((drawIndexList t.memory t.I (upd t.V 15 0 x) (upd t.V 15 0 y) n).foldl
        drawStep (t.gfx, 0)).2 := hV2
  have htx : upd t.V 15 0 x = s.V x := by
    rw [upd_ne _ _ _ _ hx, hV1, upd_ne _ _ _ _ hx, hox]
  have hty : upd t.V 15 0 y = s.V y := by
    rw [upd_ne _ _ _ _ hy, hV1, upd_ne _ _ _ _ hy, hoy]
  have hargs : drawIndexList t.memory t.I (upd t.V 15 0 x) (upd t.V 15 0 y) n
      = drawIndexList s.memory s.I (s.V x) (s.V y) n := by
    rw [hmem1, hI1, htx, hty]
  refine ⟨t, u, he1, he2, fun i => ?_, ?_⟩
  · rw [hgfx2', hargs, hgfx1']
    exact toggleAll_toggleAll s.gfx _ i
  · rw [hV2', upd_eq, hargs, hgfx1']
    exact second_draw_collision s.gfx _ c hcL hc0 0

/-- Instruction `D011` (DRW V0, V1, 1) with origin `(0, 0)`, sprite byte
`0x80` at `I = 768` (a single pixel at cell 0), and cell 0 already **on**. -/
def doubleDrawOnState : Chip8 :=
  { zeroState with
    memory := fun i => if i = 512 then 0xD0 else if i = 513 then 0x11
      else if i = 768 then 0x80 else 0,
    I := 768,
    gfx := fun i => if i = 0 then 1 else 0 }

/-- The same `D011` single-pixel draw, but over a cleared framebuffer. -/
def doubleDrawOffState : Chip8 :=
  { zeroState with
    memory := fun i => if i = 512 then 0xD0 else if i = 513 then 0x11
      else if i = 768 then 0x80 else 0,
    I := 768 }

/-- Claim C8, counterexample. A one-pixel sprite drawn twice at `(0, 0)` over a
framebuffer whose cell 0 is already lit: the first draw turns the cell off,
so the second draw touches only a dark cell and leaves the collision flag at
`0` — while the framebuffer is restored (`gfx 0 = 1`), the claimed
`V[0xF] = 1` fails. -/
theorem drw_twice_collision_counterexample :
    ((execute_instruction doubleDrawOnState).bind
      (fun t => execute_instruction { t with PC := 512 })).map
      (fun u => (u.gfx 0, u.V 15)) = some (1, 0) := by
  rfl

/-- Claim C8, witness. The amended theorem applied to the single-pixel draw
over a cleared framebuffer: the framebuffer is restored and the second draw
sets the collision flag. -/
theorem drw_twice_restores_witness :
    ∃ t u, execute_instruction doubleDrawOffState = some t ∧
      execute_instruction { t with PC := doubleDrawOffState.PC } = some u ∧
      (∀ i, u.gfx i = doubleDrawOffState.gfx i) ∧ u.V 15 = 1 :=
  drw_twice_restores doubleDrawOffState 0 1 1 (by decide) (by decide)
    (by decide) (by decide)
    (fun yl hyl => by
      obtain rfl : yl = 0 := by omega
      decide)
    ⟨0, by decide, rfl⟩

/-- All framebuffer cells hold 0 or 1. -/
def GfxBinary (s : Chip8) : Prop := ∀ i, s.gfx i ≤ 1

/-- One outward-visible mutation of the machine: an engine step or one of the
public mutators (`set_key`, `decrement_delay`, `sound_tick`). -/
def Step (s t : Chip8) : Prop :=
  execute_instruction s = some t ∨
  (∃ k b, t = set_key s k b) ∨
  t = decrement_delay s ∨
  (∃ b, sound_tick s = (b, t))

/-- States reachable from `st` by repeated machine mutations. -/
def Reach (st s : Chip8) : Prop := Relation.ReflTransGen Step st s

/-- The dispatcher `exec_opcode` preserves binary framebuffer cells: the only two arms that
write the framebuffer are CLS (cells become 0) and DRW (cells are XORed
with 1). -/
theorem exec_opcode_gfx (s t : Chip8) (instr : Nat)
    (h : ∀ i, s.gfx i ≤ 1) (he : exec_opcode s instr = some t) :
    ∀ i, t.gfx i ≤ 1 := by
  cases hd : decode instr
  case cls =>
      simp only [exec_opcode, hd, Option.some.injEq] at he
      subst he
      intro i
      exact Nat.zero_le 1
  case drw x y n =>
      simp only [exec_opcode, hd] at he
      split at he
      · simp only [Option.some.injEq] at he
        subst he
        intro i
        show ((List.range n).foldl _ (s.gfx, 0)).1 i ≤ 1
        rw [draw_foldl s.memory s.I (upd s.V 15 0 x) (upd s.V 15 0 y) n
          (s.gfx, 0), drawFold_fst]
        exact toggleAll_le_one s.gfx _ i (h i)
      · exact Option.noConfusion he
  all_goals simp only [exec_opcode, hd, Option.some.injEq] at he
  all_goals try (subst he; exact h)
  all_goals try split at he
  all_goals try split at he
  all_goals try simp only [Option.some.injEq] at he
  all_goals
    first
      | exact Option.noConfusion he
      | (subst he; exact h)

/-- Claim C9. Framebuffer cells hold only 0 or 1: this holds after
`Chip8::new`, is preserved by `execute_instruction` and by every public
mutator, and is therefore an invariant of all reachable machine states. -/
theorem gfx_cells_binary :
    (∀ game rs i, (Chip8.new game rs).gfx i ≤ 1) ∧
    (∀ s t, GfxBinary s → execute_instruction s = some t → GfxBinary t) ∧
    (∀ s t, GfxBinary s → Step s t → GfxBinary t) ∧
    (∀ game rs s, Reach (Chip8.new game rs) s → GfxBinary s) := by
  have hexec : ∀ s t, GfxBinary s → execute_instruction s = some t →
      GfxBinary t := by
    intro s t hs he
    unfold execute_instruction at he
    split at he
    · exact exec_opcode_gfx { s with PC := s.PC + 2 } t (instrAt s) hs he
    · exact Option.noConfusion he
  have hstep : ∀ s t, GfxBinary s → Step s t → GfxBinary t := by
    intro s t hs hst
    rcases hst with he | ⟨k, b, rfl⟩ | rfl | ⟨b, hb⟩
    · exact hexec s t hs he
    · intro i
      show (set_key s k b).gfx i ≤ 1
      unfold set_key
      split <;> exact hs i
    · intro i
      show (decrement_delay s).gfx i ≤ 1
      unfold decrement_delay
      split <;> exact hs i
    · unfold sound_tick at hb
      split at hb <;>
        (injection hb with hb1 hb2; subst hb2; intro i; exact hs i)
  refine ⟨fun game rs i => Nat.zero_le 1, hexec, hstep, fun game rs s hr => ?_⟩
  induction hr with
  | refl => intro i; exact Nat.zero_le 1
  | tail h1 h2 ih => exact hstep _ _ ih h2

/-- Claim C9, witness. The invariant at the freshly constructed machine, after
one `set_key` step, and through the reachability closure. -/
theorem gfx_cells_binary_witness :
    (Chip8.new [] (fun _ => 0)).gfx 0 ≤ 1 ∧
    GfxBinary (set_key zeroState 3 true) ∧
    GfxBinary (Chip8.new [] (fun _ => 0)) :=
  ⟨gfx_cells_binary.1 [] (fun _ => 0) 0,
    gfx_cells_binary.2.2.1 zeroState (set_key zeroState 3 true)
      (fun i => Nat.zero_le 1) (Or.inr (Or.inl ⟨3, true, rfl⟩)),
    gfx_cells_binary.2.2.2 [] (fun _ => 0) _ Relation.ReflTransGen.refl⟩

/-- Claim C10. `get_pixel(x, y)` reads the linear framebuffer cell
`y * 64 + x` with no per-coordinate bounds check: whenever the linear index
is under 2048 it returns whether that cell is nonzero — in particular, for
`x ≥ 64` it silently returns the pixel at `(x - 64, y + 1)`, a different
row — and it fails (index panic, modelled `none`) exactly when
`y * 64 + x ≥ 2048`. -/
theorem get_pixel_linear (s : Chip8) (x y : Nat) :
    (y * 64 + x < 2048 →
      get_pixel s x y = some (decide (s.gfx (y * 64 + x) ≠ 0))) ∧
    (2048 ≤ y * 64 + x → get_pixel s x y = none) ∧
    (64 ≤ x → y * 64 + x < 2048 →
      get_pixel s x y = get_pixel s (x - 64) (y + 1)) := by
  refine ⟨fun h => ?_, fun h => ?_, fun hx h => ?_⟩
  · rw [get_pixel, if_pos h]
  · rw [get_pixel, if_neg (by omega)]
  · rw [get_pixel, get_pixel, (by omega : (y + 1) * 64 + (x - 64) = y * 64 + x)]

/-- A state whose framebuffer has exactly cell 70 lit (row 1, column 6). -/
def pixelState : Chip8 :=
  { zeroState with gfx := fun i => if i = 70 then 1 else 0 }

/-- Claim C10, witness. The theorem at `(x, y) = (70, 0)`: the query reads
linear cell 70 — row 1's pixel — and equals `get_pixel 6 1`. -/
theorem get_pixel_linear_witness :
    (0 * 64 + 70 < 2048 →
      get_pixel pixelState 70 0
        = some (decide (pixelState.gfx (0 * 64 + 70) ≠ 0))) ∧
    (2048 ≤ 0 * 64 + 70 → get_pixel pixelState 70 0 = none) ∧
    (64 ≤ 70 → 0 * 64 + 70 < 2048 →
      get_pixel pixelState 70 0 = get_pixel pixelState (70 - 64) (0 + 1)) :=
  get_pixel_linear pixelState 70 0
